import Mathlib

/-!
# Transaction store and query pipeline: a shallow embedding

This file models the in-memory transaction store (`internal/store`), the
transaction value type (`internal/model`) and the HTTP query pipeline
(`internal/api`) of the coding-challenge service, and proves the spec's
testable properties about the model.

Modelling conventions:
* `time.Time` instants are modelled as `Int` (nanoseconds on an absolute
  axis); `Before`/`After`/`Equal` become `<`/`>`/`=` and the zero value
  (`IsZero`) is the instant `0`.
* Go `map[string]β` values are modelled as association lists
  `List (String × β)`; real Go maps never hold a key twice, so theorems
  that depend on map semantics carry a no-duplicate-keys hypothesis.
* Fallible operations return `Option`/`Except`; a Go runtime panic
  (an out-of-range slice expression) is modelled as `none`.
* `int`/`int64` are modelled as `Int`; none of the verified claims
  exercises 64-bit wrap-around.
-/

/-- Go map read `m[k]`: the value stored at the first (only) matching key. -/
def goGet {β : Type} (m : List (String × β)) (k : String) : Option β :=
  match m.find? (fun p => p.1 == k) with
  | some p => some p.2
  | none => none

/-- Go map write `m[k] = v`: overwrite the matching entry, or add one. -/
def goSet {β : Type} (m : List (String × β)) (k : String) (v : β) :
    List (String × β) :=
  match m with
  | [] => [(k, v)]
  | p :: rest => if p.1 == k then (k, v) :: rest else p :: goSet rest k v

/-- The keys of a modelled Go map. -/
def goKeys {β : Type} (m : List (String × β)) : List String :=
  m.map Prod.fst

/-- A modelled Go map is well formed when no key occurs twice
(true of every real Go map). -/
def goWF {β : Type} (m : List (String × β)) : Prop :=
  (goKeys m).Nodup

instance {β : Type} (m : List (String × β)) : Decidable (goWF m) := by
  unfold goWF; infer_instance

/-- `model.Transaction`. `effectiveAt` is a `time.Time` instant (see module
conventions); `metadata` is a `map[string]string`. -/
structure Transaction where
  id : String
  amount : Int
  currency : String
  effectiveAt : Int
  metadata : List (String × String)
deriving DecidableEq, Repr

/-- The Go zero value `model.Transaction\x7b\x7d`. -/
def Transaction.zero : Transaction :=
  { id := "", amount := 0, currency := "", effectiveAt := 0, metadata := [] }

instance : Inhabited Transaction := ⟨Transaction.zero⟩

/-- `Transaction.Clone`: a deep copy.  Under value semantics a deep copy is
the value itself; the Go function exists only to sever `Metadata` aliasing. -/
def Transaction.Clone (t : Transaction) : Transaction := t

/-- `Transaction.Equal` (internal/model): field-by-field equality; metadata
must have the same size and every key of `t` must be present in `other`
with the same value. -/
def Transaction.Equal (t other : Transaction) : Bool :=
  if t.id ≠ other.id ∨ t.amount ≠ other.amount ∨ t.currency ≠ other.currency ∨
      t.effectiveAt ≠ other.effectiveAt then
    false
  else if t.metadata.length ≠ other.metadata.length then
    false
  else
    t.metadata.all fun kv =>
      match goGet other.metadata kv.1 with
      | some v => v == kv.2
      | none => false

/-- `store.StoreError` constants. -/
inductive StoreError where
  | notFound
  | conflict
  | duplicate
deriving DecidableEq, Repr

/-- `store.MemoryStore`: an id-indexed map plus a sequence kept sorted. -/
structure MemoryStore where
  transactions : List (String × Transaction)
  ordered : List Transaction
deriving DecidableEq, Repr

/-- `store.NewMemoryStore`. -/
def NewMemoryStore : MemoryStore :=
  { transactions := [], ordered := [] }

/-- The comparison closure inside `MemoryStore.Create`: should `txn` be
inserted before `existing`? -/
def shouldInsertBefore (txn existing : Transaction) : Bool :=
  if txn.effectiveAt < existing.effectiveAt then true
  else if existing.effectiveAt < txn.effectiveAt then false
  else txn.id < existing.id

/-- The loop of Go's `sort.Search`: binary search on `[i, j)`.  The
interval length `j - i` strictly shrinks every iteration, so any `fuel ≥
j - i` makes this the exact loop semantics (structural recursion on the
fuel keeps the definition kernel-reducible). -/
def sortSearchAux (f : Nat → Bool) : Nat → Nat → Nat → Nat
  | 0, i, _ => i
  | fuel + 1, i, j =>
    if i < j then
      let m := (i + j) / 2
      if f m then sortSearchAux f fuel i m else sortSearchAux f fuel (m + 1) j
    else i

/-- Go's `sort.Search n f`. -/
def sortSearch (n : Nat) (f : Nat → Bool) : Nat :=
  sortSearchAux f n 0 n

/-- The grow-shift-set idiom of `MemoryStore.Create`: insert `t` at
position `n` (the Go code only ever calls it with `n ≤ l.length`). -/
def insertAt (l : List Transaction) (n : Nat) (t : Transaction) :
    List Transaction :=
  l.take n ++ t :: l.drop n

/-- `MemoryStore.Create`: `none` in the second component is Go's `nil`
error, `some e` the returned store error. -/
def MemoryStore.Create (s : MemoryStore) (txn : Transaction) :
    MemoryStore × Option StoreError :=
  match goGet s.transactions txn.id with
  | some existingTxn =>
    if existingTxn.Equal txn then (s, some .duplicate)
    else (s, some .conflict)
  | none =>
    let stored := txn.Clone
    let index := sortSearch s.ordered.length
      (fun i => shouldInsertBefore txn (s.ordered.getD i default))
    ({ transactions := goSet s.transactions txn.id stored,
       ordered := insertAt s.ordered index stored }, none)

/-- `MemoryStore.Get`. -/
def MemoryStore.Get (s : MemoryStore) (id : String) :
    Except StoreError Transaction :=
  match goGet s.transactions id with
  | some existingTxn => .ok existingTxn.Clone
  | none => .error .notFound

/-- `MemoryStore.List`.  `none` models the runtime panic that the slice
expression `s.ordered[offset:end]` raises when its bounds are out of
range (`0 ≤ offset ≤ end` is required by Go). -/
def MemoryStore.List (s : MemoryStore) (limit offset : Int) :
    Option (List Transaction) :=
  if offset ≥ (s.ordered.length : Int) then some []
  else
    let e : Int :=
      if offset + limit > (s.ordered.length : Int) then s.ordered.length
      else offset + limit
    if 0 ≤ offset ∧ offset ≤ e then
      some (((s.ordered.take e.toNat).drop offset.toNat).map Transaction.Clone)
    else none

/-! ## API layer (`internal/api`) -/

/-- `api.ValidateTransaction`: `none` is Go's `nil` error; `some msg` the
rejection message.  `txn.effectiveAt = 0` is `txn.EffectiveAt.IsZero()`. -/
def ValidateTransaction (txn : Transaction) : Option String :=
  if txn.id = "" then some "id is required"
  else if txn.currency = "" then some "currency is required"
  else if txn.amount < 0 then some "amount must be positive"
  else if txn.effectiveAt = 0 then some "effective_at is required"
  else none

/-- `api.ValidatePagination`. -/
def ValidatePagination (limit offset : Int) : Option String :=
  if limit < 1 ∨ limit > 1000 then some "limit must be between 1 and 1000"
  else if offset < 0 then some "offset must be non-negative"
  else none

/-- Digit run of `strconv`: the numeric value of a nonempty all-digit
character list. -/
def parseDigits (cs : List Char) : Option Nat :=
  if cs ≠ [] ∧ cs.all Char.isDigit then
    some (cs.foldl (fun acc c => acc * 10 + (c.toNat - 48)) 0)
  else none

/-- `strconv.Atoi` / `strconv.ParseInt(s, 10, 64)`: optional sign, a
nonempty digit run, and the `int64` range check. -/
def goParseInt (s : String) : Option Int :=
  let signBody : Int × List Char :=
    match s.data with
    | '-' :: rest => (-1, rest)
    | '+' :: rest => (1, rest)
    | cs => (1, cs)
  match parseDigits signBody.2 with
  | some n =>
    let v : Int := signBody.1 * n
    if -(2 ^ 63) ≤ v ∧ v < 2 ^ 63 then some v else none
  | none => none

/-- `api.ParseIntOrDefault`. -/
def ParseIntOrDefault (s : String) (defaultVal : Int) : Int :=
  if s = "" then defaultVal
  else
    match goParseInt s with
    | some val => val
    | none => defaultVal

/-- Nanoseconds per hour (`time.Hour`). -/
def hourNs : Int := 3600 * 1000000000

/-- Gregorian leap-year rule used by `time`. -/
def isLeapYear (y : Nat) : Bool :=
  y % 4 = 0 ∧ (y % 100 ≠ 0 ∨ y % 400 = 0)

/-- Length of month `m` of year `y`. -/
def daysInMonth (y m : Nat) : Nat :=
  if m = 2 then (if isLeapYear y then 29 else 28)
  else if m = 4 ∨ m = 6 ∨ m = 9 ∨ m = 11 then 30
  else 31

/-- Days in the proleptic Gregorian calendar from 0000-01-01 to the start
of year `y`: 365 per year plus one per leap year before `y` (year 0 is
leap, so count multiples of 4/100/400 in `[0, y)`). -/
def daysBeforeYear (y : Nat) : Nat :=
  365 * y + (y + 3) / 4 - (y + 99) / 100 + (y + 399) / 400

/-- Days from the start of year `y` to the start of its month `m`. -/
def daysBeforeMonth (y m : Nat) : Nat :=
  (((List.range (m - 1)).map fun k => daysInMonth y (k + 1))).sum

/-- The instant (in the `Int` nanosecond model, epoch 0000-01-01T00:00:00Z)
of midnight UTC on a civil date, as `time.Date(y, m, d, 0, 0, 0, 0, UTC)`
produces for an in-range date. -/
def midnightNs (y m d : Nat) : Int :=
  ((daysBeforeYear y + daysBeforeMonth y m + (d - 1)) : Int) * 24 * hourNs

/-- `time.Parse("2006-01-02", s)`: exactly `DDDD-DD-DD`, month `1..12`,
day within the month. -/
def goParseDate (s : String) : Option Int :=
  match s.data with
  | [y1, y2, y3, y4, s1, m1, m2, s2, d1, d2] =>
    if y1.isDigit ∧ y2.isDigit ∧ y3.isDigit ∧ y4.isDigit ∧ s1 = '-' ∧
        m1.isDigit ∧ m2.isDigit ∧ s2 = '-' ∧ d1.isDigit ∧ d2.isDigit then
      let y := ((y1.toNat - 48) * 10 + (y2.toNat - 48)) * 100 +
        ((y3.toNat - 48) * 10 + (y4.toNat - 48))
      let m := (m1.toNat - 48) * 10 + (m2.toNat - 48)
      let d := (d1.toNat - 48) * 10 + (d2.toNat - 48)
      if 1 ≤ m ∧ m ≤ 12 ∧ 1 ≤ d ∧ d ≤ daysInMonth y m then
        some (midnightNs y m d)
      else none
    else none
  | _ => none

/-- `api.ParseDateOrNil`: `.ok none` for the empty string ("no filter"),
`.ok (some t)` on success, `.error` when `time.Parse` fails. -/
def ParseDateOrNil (dateStr : String) : Except String (Option Int) :=
  if dateStr = "" then .ok none
  else
    match goParseDate dateStr with
    | some t => .ok (some t)
    | none => .error "parsing time error"

/-- `api.ParseAndValidateDateFilters`. -/
def ParseAndValidateDateFilters (startDateStr endDateStr : String) :
    Except String (Option Int × Option Int) :=
  let startRes : Except String (Option Int) :=
    if startDateStr ≠ "" then ParseDateOrNil startDateStr else .ok none
  match startRes with
  | .error _ => .error "invalid start_date format, use YYYY-MM-DD"
  | .ok startDate =>
    let endRes : Except String (Option Int) :=
      if endDateStr ≠ "" then ParseDateOrNil endDateStr else .ok none
    match endRes with
    | .error _ => .error "invalid end_date format, use YYYY-MM-DD"
    | .ok endDate =>
      match startDate, endDate with
      | some sd, some ed =>
        if sd > ed then .error "start_date must be before or equal to end_date"
        else .ok (some sd, some ed)
      | _, _ => .ok (startDate, endDate)

/-- `api.ParseAndValidateAmountFilters`. -/
def ParseAndValidateAmountFilters (minAmountStr maxAmountStr : String) :
    Except String (Option Int × Option Int) :=
  let minRes : Except String (Option Int) :=
    if minAmountStr ≠ "" then
      match goParseInt minAmountStr with
      | some val => .ok (some val)
      | none => .error "invalid min_amount"
    else .ok none
  match minRes with
  | .error e => .error e
  | .ok minAmount =>
    let maxRes : Except String (Option Int) :=
      if maxAmountStr ≠ "" then
        match goParseInt maxAmountStr with
        | some val => .ok (some val)
        | none => .error "invalid max_amount"
      else .ok none
    match maxRes with
    | .error e => .error e
    | .ok maxAmount =>
      match minAmount, maxAmount with
      | some mn, some mx =>
        if mn > mx then .error "min_amount must be less than or equal to max_amount"
        else .ok (some mn, some mx)
      | _, _ => .ok (minAmount, maxAmount)

/-- `strings.EqualFold` restricted to the ASCII case mapping (the only one
exercised by currency codes). -/
def goEqualFold (a b : String) : Bool :=
  a.toLower == b.toLower

/-- The per-record keep condition of `api.ApplyFilters`: the conjunction of
the negated `continue` tests, in source order. -/
def keepTxn (currency : String) (startDate endDate minAmount maxAmount : Option Int)
    (txn : Transaction) : Bool :=
  (currency == "" || goEqualFold txn.currency currency) &&
  (match startDate with
   | none => true
   | some sd => !(txn.effectiveAt < sd)) &&
  (match endDate with
   | none => true
   | some ed => !(txn.effectiveAt > ed + 24 * hourNs)) &&
  (match minAmount with
   | none => true
   | some mn => !(txn.amount < mn)) &&
  (match maxAmount with
   | none => true
   | some mx => !(txn.amount > mx))

/-- `api.ApplyFilters`. -/
def ApplyFilters (transactions : List Transaction) (currency : String)
    (startDate endDate minAmount maxAmount : Option Int) : List Transaction :=
  transactions.filter (keepTxn currency startDate endDate minAmount maxAmount)

/-- `api.ApplyPagination`.  As with `MemoryStore.List`, `none` models the
panic of an out-of-range slice expression. -/
def ApplyPagination (transactions : List Transaction) (limit offset : Int) :
    Option (List Transaction) :=
  let len : Int := transactions.length
  let start := if offset > len then len else offset
  let e := if start + limit > len then len else start + limit
  if 0 ≤ start ∧ start ≤ e then
    some ((transactions.take e.toNat).drop start.toNat)
  else none

/-- The raw query-string values consumed by the list endpoint
(`url.Values.Get` returns `""` for an absent parameter). -/
structure ListQuery where
  limit : String
  offset : String
  currency : String
  start_date : String
  end_date : String
  min_amount : String
  max_amount : String
deriving DecidableEq, Repr

/-- `api.parseQueryParams`. -/
def parseQueryParams (q : ListQuery) :
    Int × Int × String × String × String × String × String :=
  (ParseIntOrDefault q.limit 100, ParseIntOrDefault q.offset 0,
   q.currency.toUpper, q.start_date, q.end_date, q.min_amount, q.max_amount)

/-- `Handler.ListTransactions`, with the store snapshot taken over a given
list of already-fetched transactions in place of `h.store.List(10000, 0)`.
Used to state that the endpoint is the filter/pagination pipeline over the
full ordered sequence. -/
def pipelineOnFull (allTransactions : List Transaction) (q : ListQuery) :
    Except String (List Transaction) :=
  let p := parseQueryParams q
  match ValidatePagination p.1 p.2.1 with
  | some e => .error e
  | none =>
    match ParseAndValidateDateFilters p.2.2.2.1 p.2.2.2.2.1 with
    | .error e => .error e
    | .ok dates =>
      match ParseAndValidateAmountFilters p.2.2.2.2.2.1 p.2.2.2.2.2.2 with
      | .error e => .error e
      | .ok amounts =>
        let filtered := ApplyFilters allTransactions p.2.2.1 dates.1 dates.2
          amounts.1 amounts.2
        match ApplyPagination filtered p.1 p.2.1 with
        | some results => .ok results
        | none => .error "slice bounds out of range"

/-- `Handler.ListTransactions`.  The `Bool` component records whether
control reached the `h.store.List(10000, 0)` call (the Store Engine
access); every early validation `return` leaves it `false`. -/
def ListTransactions (s : MemoryStore) (q : ListQuery) :
    Bool × Except String (List Transaction) :=
  let p := parseQueryParams q
  match ValidatePagination p.1 p.2.1 with
  | some e => (false, .error e)
  | none =>
    match ParseAndValidateDateFilters p.2.2.2.1 p.2.2.2.2.1 with
    | .error e => (false, .error e)
    | .ok dates =>
      match ParseAndValidateAmountFilters p.2.2.2.2.2.1 p.2.2.2.2.2.2 with
      | .error e => (false, .error e)
      | .ok amounts =>
        match s.List 10000 0 with
        | none => (true, .error "internal server error")
        | some allTransactions =>
          let filtered := ApplyFilters allTransactions p.2.2.1 dates.1 dates.2
            amounts.1 amounts.2
          match ApplyPagination filtered p.1 p.2.1 with
          | some results => (true, .ok results)
          | none => (true, .error "slice bounds out of range")

/-! ## Derived definitions used by the verification -/

/-- The store's comparator as a strict relation: earlier `effectiveAt`
first, ties broken by ascending `id`. -/
def txnLt (a b : Transaction) : Prop :=
  a.effectiveAt < b.effectiveAt ∨
    (a.effectiveAt = b.effectiveAt ∧ a.id < b.id)

/-- The claim's reference predicate, following the spec's words: with an
`endDate` constraint a record matches iff its `effectiveAt` is *strictly
before* `endDate + 24 hours`; all other clauses as the spec states them. -/
def specKeepTxn (currency : String)
    (startDate endDate minAmount maxAmount : Option Int)
    (txn : Transaction) : Bool :=
  (currency == "" || goEqualFold txn.currency currency) &&
  (match startDate with
   | none => true
   | some sd => !(txn.effectiveAt < sd)) &&
  (match endDate with
   | none => true
   | some ed => decide (txn.effectiveAt < ed + 24 * hourNs)) &&
  (match minAmount with
   | none => true
   | some mn => !(txn.amount < mn)) &&
  (match maxAmount with
   | none => true
   | some mx => !(txn.amount > mx))

/-- The claim's reference filter: the subsequence of records satisfying
`specKeepTxn`, input order preserved. -/
def specApplyFilters (transactions : List Transaction) (currency : String)
    (startDate endDate minAmount maxAmount : Option Int) : List Transaction :=
  transactions.filter (specKeepTxn currency startDate endDate minAmount maxAmount)

/-- The amended reference predicate: with an `endDate` constraint a record
matches iff its `effectiveAt` is *not after* `endDate + 24 hours`. -/
def amendedKeepTxn (currency : String)
    (startDate endDate minAmount maxAmount : Option Int)
    (txn : Transaction) : Bool :=
  (currency == "" || goEqualFold txn.currency currency) &&
  (match startDate with
   | none => true
   | some sd => !(txn.effectiveAt < sd)) &&
  (match endDate with
   | none => true
   | some ed => decide (txn.effectiveAt ≤ ed + 24 * hourNs)) &&
  (match minAmount with
   | none => true
   | some mn => !(txn.amount < mn)) &&
  (match maxAmount with
   | none => true
   | some mx => !(txn.amount > mx))

/-- The amended reference filter. -/
def amendedApplyFilters (transactions : List Transaction) (currency : String)
    (startDate endDate minAmount maxAmount : Option Int) : List Transaction :=
  transactions.filter
    (amendedKeepTxn currency startDate endDate minAmount maxAmount)

/-- The store invariant maintained by `Create`: well-formed index keyed by
the stored ids, and an ordered sequence that is a permutation of the
index's records and strictly sorted by the comparator. -/
def StoreInv (s : MemoryStore) : Prop :=
  goWF s.transactions ∧
  (∀ p ∈ s.transactions, p.1 = p.2.id) ∧
  List.Perm s.ordered (s.transactions.map Prod.snd) ∧
  s.ordered.Pairwise txnLt

/-- Any number of `Create` calls applied to the empty store. -/
def createAll (txns : List Transaction) : MemoryStore :=
  txns.foldl (fun s t => (s.Create t).1) NewMemoryStore

/-! ## Helper lemmas: modelled Go maps -/

theorem goGet_nil {β : Type} (k : String) : goGet ([] : List (String × β)) k = none := rfl

theorem goGet_cons {β : Type} (p : String × β) (rest : List (String × β)) (k : String) :
    goGet (p :: rest) k = if p.1 = k then some p.2 else goGet rest k := by
  by_cases h : p.1 = k
  · unfold goGet
    rw [List.find?_cons_of_pos _ (by simpa using h)]
    simp [h]
  · unfold goGet
    rw [List.find?_cons_of_neg _ (by simpa using h)]
    simp [h]

theorem goSet_cons {β : Type} (p : String × β) (rest : List (String × β))
    (k : String) (v : β) :
    goSet (p :: rest) k v =
      if p.1 = k then (k, v) :: rest else p :: goSet rest k v := by
  by_cases h : p.1 = k <;> simp [goSet, h]

theorem goWF_cons {β : Type} {p : String × β} {rest : List (String × β)}
    (h : goWF (p :: rest)) : goWF rest ∧ p.1 ∉ goKeys rest := by
  have := h
  simp only [goWF, goKeys, List.map_cons, List.nodup_cons] at this
  exact ⟨this.2, by simpa [goKeys] using this.1⟩

theorem goGet_eq_none_iff {β : Type} (m : List (String × β)) (k : String) :
    goGet m k = none ↔ ∀ p ∈ m, p.1 ≠ k := by
  induction m with
  | nil => simp [goGet_nil]
  | cons p rest ih =>
    rw [goGet_cons]
    by_cases h : p.1 = k <;> simp [h, ih]

theorem goGet_mem {β : Type} {m : List (String × β)} {k : String} {v : β}
    (h : goGet m k = some v) : (k, v) ∈ m := by
  induction m with
  | nil => simp [goGet_nil] at h
  | cons p rest ih =>
    rw [goGet_cons] at h
    by_cases hp : p.1 = k
    · rw [if_pos hp] at h
      have : p = (k, v) := by
        cases p
        simp_all
      simp [this]
    · rw [if_neg hp] at h
      exact List.mem_cons_of_mem _ (ih h)

theorem mem_goKeys {β : Type} {m : List (String × β)} {k : String} :
    k ∈ goKeys m ↔ ∃ v, (k, v) ∈ m := by
  unfold goKeys
  constructor
  · intro h
    rcases List.mem_map.mp h with ⟨p, hp, hfst⟩
    refine ⟨p.2, ?_⟩
    have : p = (k, p.2) := by cases p; simp_all
    rwa [this] at hp
  · rintro ⟨v, hv⟩
    exact List.mem_map.mpr ⟨(k, v), hv, rfl⟩

theorem goGet_of_mem_wf {β : Type} {m : List (String × β)} {k : String} {v : β}
    (hwf : goWF m) (hmem : (k, v) ∈ m) : goGet m k = some v := by
  induction m with
  | nil => simp at hmem
  | cons p rest ih =>
    obtain ⟨hwf', hnotin⟩ := goWF_cons hwf
    rw [goGet_cons]
    rcases List.mem_cons.mp hmem with hp | hrest
    · rw [← hp]
      simp
    · have hk : p.1 ≠ k := by
        intro hkeq
        exact hnotin (hkeq ▸ mem_goKeys.mpr ⟨v, hrest⟩)
      rw [if_neg hk]
      exact ih hwf' hrest

theorem goGet_goSet_self {β : Type} (m : List (String × β)) (k : String) (v : β) :
    goGet (goSet m k v) k = some v := by
  induction m with
  | nil => simp [goSet, goGet_cons]
  | cons p rest ih =>
    rw [goSet_cons]
    by_cases h : p.1 = k
    · rw [if_pos h, goGet_cons]
      simp
    · rw [if_neg h, goGet_cons, if_neg h]
      exact ih

theorem goSet_of_none {β : Type} {m : List (String × β)} {k : String}
    (v : β) (h : goGet m k = none) : goSet m k v = m ++ [(k, v)] := by
  induction m with
  | nil => simp [goSet]
  | cons p rest ih =>
    have hp : p.1 ≠ k := (goGet_eq_none_iff _ _).mp h p (by simp)
    have hrest : goGet rest k = none := by
      rw [goGet_eq_none_iff] at h ⊢
      intro q hq
      exact h q (by simp [hq])
    rw [goSet_cons, if_neg hp, ih hrest]
    simp

theorem goGet_isSome_iff {β : Type} (m : List (String × β)) (k : String) :
    (∃ v, goGet m k = some v) ↔ k ∈ goKeys m := by
  constructor
  · rintro ⟨v, hv⟩
    exact mem_goKeys.mpr ⟨v, goGet_mem hv⟩
  · intro h
    rcases hg : goGet m k with _ | v
    · rcases mem_goKeys.mp h with ⟨v, hv⟩
      exact absurd ((goGet_eq_none_iff _ _).mp hg (k, v) hv) (by simp)
    · exact ⟨v, rfl⟩

theorem nodup_length_eq {l₁ l₂ : List String} (h₁ : l₁.Nodup) (h₂ : l₂.Nodup)
    (h : ∀ x, x ∈ l₁ ↔ x ∈ l₂) : l₁.length = l₂.length := by
  have hfin : l₁.toFinset = l₂.toFinset := by
    apply Finset.ext
    intro a
    simpa using h a
  calc l₁.length = l₁.toFinset.card := (List.toFinset_card_of_nodup h₁).symm
    _ = l₂.toFinset.card := by rw [hfin]
    _ = l₂.length := List.toFinset_card_of_nodup h₂

theorem nodup_subset_length_mem {l₁ l₂ : List String} (h₁ : l₁.Nodup)
    (h₂ : l₂.Nodup) (hsub : l₁ ⊆ l₂) (hlen : l₂.length ≤ l₁.length) :
    ∀ x ∈ l₂, x ∈ l₁ := by
  have hfsub : l₁.toFinset ⊆ l₂.toFinset := by
    intro a ha
    simp only [List.mem_toFinset] at ha ⊢
    exact hsub ha
  have hcard : l₂.toFinset.card ≤ l₁.toFinset.card := by
    rw [List.toFinset_card_of_nodup h₁, List.toFinset_card_of_nodup h₂]
    exact hlen
  have : l₁.toFinset = l₂.toFinset := Finset.eq_of_subset_of_card_le hfsub hcard
  intro x hx
  have : x ∈ l₁.toFinset := this ▸ List.mem_toFinset.mpr hx
  exact List.mem_toFinset.mp this

/-- The metadata loop of `Transaction.Equal`, spelled out. -/
theorem Equal_eq_true_iff {t o : Transaction} (hwf : goWF t.metadata)
    (hwf' : goWF o.metadata) :
    t.Equal o = true ↔
      t.id = o.id ∧ t.amount = o.amount ∧ t.currency = o.currency ∧
      t.effectiveAt = o.effectiveAt ∧
      ∀ k, goGet t.metadata k = goGet o.metadata k := by
  constructor
  · intro h
    unfold Transaction.Equal at h
    by_cases hfields : t.id ≠ o.id ∨ t.amount ≠ o.amount ∨
        t.currency ≠ o.currency ∨ t.effectiveAt ≠ o.effectiveAt
    · rw [if_pos hfields] at h; exact absurd h (by simp)
    rw [if_neg hfields] at h
    push_neg at hfields
    by_cases hlen : t.metadata.length ≠ o.metadata.length
    · rw [if_pos hlen] at h; exact absurd h (by simp)
    rw [if_neg hlen] at h
    push_neg at hlen
    have hincl : ∀ p ∈ t.metadata, goGet o.metadata p.1 = some p.2 := by
      intro p hp
      have hall := List.all_eq_true.mp h p hp
      revert hall
      cases goGet o.metadata p.1 with
      | none => intro hall; exact absurd hall (by simp)
      | some v =>
        intro hall
        have : v = p.2 := by simpa using hall
        rw [this]
    refine ⟨hfields.1, hfields.2.1, hfields.2.2.1, hfields.2.2.2, fun k => ?_⟩
    rcases hk : goGet t.metadata k with _ | v
    · have hksub : goKeys t.metadata ⊆ goKeys o.metadata := by
        intro x hx
        rcases mem_goKeys.mp hx with ⟨v, hv⟩
        exact mem_goKeys.mpr ⟨v, goGet_mem (hincl (x, v) hv)⟩
      have hklen : (goKeys o.metadata).length ≤ (goKeys t.metadata).length := by
        simp only [goKeys, List.length_map]
        omega
      rcases hok : goGet o.metadata k with _ | v
      · rfl
      · have : k ∈ goKeys t.metadata :=
          nodup_subset_length_mem hwf hwf' hksub hklen k
            (mem_goKeys.mpr ⟨v, goGet_mem hok⟩)
        rcases (goGet_isSome_iff _ _).mpr this with ⟨v', hv'⟩
        rw [hv'] at hk
        exact absurd hk (by simp)
    · rw [hincl (k, v) (goGet_mem hk)]
  · rintro ⟨hid, ham, hcur, heff, hmap⟩
    unfold Transaction.Equal
    rw [if_neg (by push_neg; exact ⟨hid, ham, hcur, heff⟩)]
    have hlen : t.metadata.length = o.metadata.length := by
      have := nodup_length_eq hwf hwf' (fun x => by
        rw [← goGet_isSome_iff, ← goGet_isSome_iff]
        constructor
        · rintro ⟨v, hv⟩; exact ⟨v, (hmap x) ▸ hv⟩
        · rintro ⟨v, hv⟩; exact ⟨v, (hmap x).symm ▸ hv⟩)
      simpa [goKeys] using this
    rw [if_neg (by omega)]
    apply List.all_eq_true.mpr
    intro p hp
    have hp' : (p.1, p.2) ∈ t.metadata := by
      have : p = (p.1, p.2) := by cases p; rfl
      rwa [← this]
    have := goGet_of_mem_wf hwf hp'
    rw [hmap p.1] at this
    rw [this]
    simp

/-- `Transaction.Equal` is reflexive on transactions whose metadata map is
well formed. -/
theorem Equal_refl {t : Transaction} (hwf : goWF t.metadata) :
    t.Equal t = true :=
  (Equal_eq_true_iff hwf hwf).mpr ⟨rfl, rfl, rfl, rfl, fun _ => rfl⟩

/-! ## C1, C2: Create semantics -/

/-- C1 — Idempotent write: if `T.id` is not yet present, `Create(T)` is
Accepted (`nil` error), an immediately repeated `Create(T)` with the
identical payload is `ErrDuplicate`, and the store (in particular the
record under `T.id`) after both calls equals the store after the first. -/
theorem create_idempotent (s : MemoryStore) (T : Transaction)
    (hfresh : goGet s.transactions T.id = none)
    (hwf : goWF T.metadata) :
    (s.Create T).2 = none ∧
    ((s.Create T).1.Create T).2 = some StoreError.duplicate ∧
    ((s.Create T).1.Create T).1 = (s.Create T).1 ∧
    goGet (s.Create T).1.transactions T.id = some T := by
  have hget : goGet (goSet s.transactions T.id T) T.id = some T :=
    goGet_goSet_self _ _ _
  have heq : Transaction.Equal T T = true := Equal_refl hwf
  refine ⟨?_, ?_, ?_, ?_⟩
  · simp only [MemoryStore.Create, hfresh]
  · simp only [MemoryStore.Create, hfresh, Transaction.Clone, hget, heq,
      if_true]
  · simp only [MemoryStore.Create, hfresh, Transaction.Clone, hget, heq,
      if_true]
  · simp only [MemoryStore.Create, hfresh, Transaction.Clone, hget]

/-- Concrete instance of `create_idempotent`. -/
theorem create_idempotent_witness :
    (goGet NewMemoryStore.transactions "t1" = none ∧
      goWF [("k", "v")]) ∧
    ((NewMemoryStore.Create ⟨"t1", 5, "USD", 100, [("k", "v")]⟩).2 = none ∧
      ((NewMemoryStore.Create ⟨"t1", 5, "USD", 100, [("k", "v")]⟩).1.Create
        ⟨"t1", 5, "USD", 100, [("k", "v")]⟩).2 = some StoreError.duplicate ∧
      ((NewMemoryStore.Create ⟨"t1", 5, "USD", 100, [("k", "v")]⟩).1.Create
        ⟨"t1", 5, "USD", 100, [("k", "v")]⟩).1 =
        (NewMemoryStore.Create ⟨"t1", 5, "USD", 100, [("k", "v")]⟩).1 ∧
      goGet (NewMemoryStore.Create
        ⟨"t1", 5, "USD", 100, [("k", "v")]⟩).1.transactions "t1" =
        some ⟨"t1", 5, "USD", 100, [("k", "v")]⟩) :=
  ⟨⟨by decide, by decide⟩,
    create_idempotent NewMemoryStore ⟨"t1", 5, "USD", 100, [("k", "v")]⟩
      (by decide) (by decide)⟩

/-- C2 — Conflict exclusivity with atomicity on error: for `T`, `T'`
sharing an id but differing in some field (a metadata difference meaning a
difference of the key-value maps), `Create(T)` then `Create(T')` is
Accepted then `ErrConflict`, the failed call leaves the whole store
unchanged, and `Get(id)` returns `T`, which is distinct from `T'`. -/
theorem create_conflict (s : MemoryStore) (T T' : Transaction)
    (hid : T'.id = T.id)
    (hfresh : goGet s.transactions T.id = none)
    (hwf : goWF T.metadata) (hwf' : goWF T'.metadata)
    (hdiff : ¬(T.amount = T'.amount ∧ T.currency = T'.currency ∧
      T.effectiveAt = T'.effectiveAt ∧
      ∀ k, goGet T.metadata k = goGet T'.metadata k)) :
    (s.Create T).2 = none ∧
    ((s.Create T).1.Create T').2 = some StoreError.conflict ∧
    ((s.Create T).1.Create T').1 = (s.Create T).1 ∧
    (s.Create T).1.Get T.id = Except.ok T ∧
    T ≠ T' := by
  have hget : goGet (goSet s.transactions T.id T) T.id = some T :=
    goGet_goSet_self _ _ _
  have hneq : T.Equal T' = false := by
    cases h : T.Equal T' with
    | false => rfl
    | true =>
      obtain ⟨_, h2, h3, h4, h5⟩ := (Equal_eq_true_iff hwf hwf').mp h
      exact absurd ⟨h2, h3, h4, h5⟩ hdiff
  refine ⟨?_, ?_, ?_, ?_, ?_⟩
  · simp only [MemoryStore.Create, hfresh]
  · simp only [MemoryStore.Create, hfresh, Transaction.Clone, hid, hget,
      hneq, Bool.false_eq_true, if_false]
  · simp only [MemoryStore.Create, hfresh, Transaction.Clone, hid, hget,
      hneq, Bool.false_eq_true, if_false]
  · simp only [MemoryStore.Create, MemoryStore.Get, hfresh,
      Transaction.Clone, hget]
  · intro h
    exact hdiff (by rw [h]; exact ⟨rfl, rfl, rfl, fun _ => rfl⟩)

/-- Concrete instance of `create_conflict` (same id, different amount). -/
theorem create_conflict_witness :
    ((⟨"t1", 6, "USD", 100, []⟩ : Transaction).id =
        (⟨"t1", 5, "USD", 100, []⟩ : Transaction).id ∧
      goGet NewMemoryStore.transactions "t1" = none ∧
      goWF ([] : List (String × String))) ∧
    ((NewMemoryStore.Create ⟨"t1", 5, "USD", 100, []⟩).2 = none ∧
      ((NewMemoryStore.Create ⟨"t1", 5, "USD", 100, []⟩).1.Create
        ⟨"t1", 6, "USD", 100, []⟩).2 = some StoreError.conflict ∧
      ((NewMemoryStore.Create ⟨"t1", 5, "USD", 100, []⟩).1.Create
        ⟨"t1", 6, "USD", 100, []⟩).1 =
        (NewMemoryStore.Create ⟨"t1", 5, "USD", 100, []⟩).1 ∧
      (NewMemoryStore.Create ⟨"t1", 5, "USD", 100, []⟩).1.Get "t1" =
        Except.ok ⟨"t1", 5, "USD", 100, []⟩ ∧
      (⟨"t1", 5, "USD", 100, []⟩ : Transaction) ≠ ⟨"t1", 6, "USD", 100, []⟩) :=
  ⟨⟨by decide, by decide, by decide⟩,
    create_conflict NewMemoryStore ⟨"t1", 5, "USD", 100, []⟩
      ⟨"t1", 6, "USD", 100, []⟩ (by decide) (by decide) (by decide) (by decide)
      (fun h => absurd h.1 (by decide))⟩

/-! ## C7, C9: validators -/

/-- C7 — `ValidatePagination` errors exactly when `limit` lies outside
`[1, 1000]` or `offset` is negative; every in-range pair is ok. -/
theorem validate_pagination_spec (limit offset : Int) :
    (∃ e, ValidatePagination limit offset = some e) ↔
      (limit < 1 ∨ limit > 1000 ∨ offset < 0) := by
  unfold ValidatePagination
  by_cases h1 : limit < 1 ∨ limit > 1000
  · rw [if_pos h1]
    simp only [Option.some.injEq, exists_eq']
    constructor
    · intro _; omega
    · intro _; trivial
  · rw [if_neg h1]
    by_cases h2 : offset < 0
    · rw [if_pos h2]
      simp only [Option.some.injEq, exists_eq']
      constructor
      · intro _; omega
      · intro _; trivial
    · rw [if_neg h2]
      simp only [reduceCtorEq, exists_false, false_iff]
      omega

/-- C9 — `ValidateTransaction` errors exactly when the id is empty, the
currency is empty, the amount is negative, or `effectiveAt` is the zero
time; in particular amount `0` and arbitrary (e.g. empty) metadata pass. -/
theorem validate_transaction_spec (txn : Transaction) :
    (∃ e, ValidateTransaction txn = some e) ↔
      (txn.id = "" ∨ txn.currency = "" ∨ txn.amount < 0 ∨
        txn.effectiveAt = 0) := by
  unfold ValidateTransaction
  by_cases h1 : txn.id = "" <;> by_cases h2 : txn.currency = "" <;>
    by_cases h3 : txn.amount < 0 <;> by_cases h4 : txn.effectiveAt = 0 <;>
    simp [h1, h2, h3, h4]

/-! ## C4: `MemoryStore.List` on negative inputs -/

/-- C4 — On a store holding one record, `List(10, -1)` and `List(-1, 0)`
reach the slice expression `s.ordered[offset:end]` with out-of-range
bounds: the Go code panics (modelled as `none`) instead of clamping. -/
theorem list_negative_inputs_panic :
    ((NewMemoryStore.Create ⟨"a", 1, "USD", 100, []⟩).1).List 10 (-1) =
      none ∧
    ((NewMemoryStore.Create ⟨"a", 1, "USD", 100, []⟩).1).List (-1) 0 =
      none := by decide

/-! ## C5: `ApplyFilters` versus the spec's reference filter -/

/-- C5 counterexample — a record whose `effectiveAt` is exactly
`endDate + 24 hours` (midnight of the day after the end date) is kept by
the code but rejected by the claim's strictly-before reference filter. -/
theorem apply_filters_endDate_boundary_counterexample :
    ApplyFilters [⟨"t", 1, "USD", 24 * hourNs, []⟩] "" none (some 0)
        none none ≠
      specApplyFilters [⟨"t", 1, "USD", 24 * hourNs, []⟩] "" none (some 0)
        none none := by decide

/-- C5 amended — `ApplyFilters` equals the reference conjunction filter
with the `endDate` clause read inclusively (`effectiveAt ≤ endDate + 24h`):
order preserved, conjunction of the optional predicates, currency
case-insensitive, `startDate`/amount bounds inclusive. -/
theorem apply_filters_eq_amended (transactions : List Transaction)
    (currency : String) (startDate endDate minAmount maxAmount : Option Int) :
    ApplyFilters transactions currency startDate endDate minAmount maxAmount =
      amendedApplyFilters transactions currency startDate endDate minAmount
        maxAmount := by
  unfold ApplyFilters amendedApplyFilters
  apply List.filter_congr
  intro x _
  cases endDate with
  | none => rfl
  | some ed =>
    by_cases hx : x.effectiveAt > ed + 24 * hourNs
    · have h1 : ¬ x.effectiveAt ≤ ed + 24 * hourNs := by omega
      simp [keepTxn, amendedKeepTxn, hx, h1]
    · have h1 : x.effectiveAt ≤ ed + 24 * hourNs := by omega
      simp [keepTxn, amendedKeepTxn, hx, h1]

/-! ## C8: eager validation in the list handler -/

/-- C8 counterexample — a request with the non-numeric limit string
`"abc"` is *not* rejected: `ParseIntOrDefault` falls back to the default
100, validation passes, and the Store Engine is accessed (first component
`true`), returning a normal response. -/
theorem list_handler_nonnumeric_limit_counterexample :
    (ListTransactions NewMemoryStore ⟨"abc", "", "", "", "", "", ""⟩).1 =
        true ∧
      (ListTransactions NewMemoryStore ⟨"abc", "", "", "", "", "", ""⟩).2 =
        Except.ok [] :=
  ⟨rfl, rfl⟩

/-- C8 amended — whenever the parsed pagination values fail
`ValidatePagination`, or the date filters fail parsing/range validation,
or the amount filters do, the handler fails before the Store Engine access
(`false` flag) with an error response. -/
theorem list_handler_validation_gates (s : MemoryStore) (q : ListQuery)
    (hbad :
      (∃ e, ValidatePagination (ParseIntOrDefault q.limit 100)
        (ParseIntOrDefault q.offset 0) = some e) ∨
      (∃ e, ParseAndValidateDateFilters q.start_date q.end_date =
        Except.error e) ∨
      (∃ e, ParseAndValidateAmountFilters q.min_amount q.max_amount =
        Except.error e)) :
    (ListTransactions s q).1 = false ∧
    ∃ e, (ListTransactions s q).2 = Except.error e := by
  cases hp : ValidatePagination (ParseIntOrDefault q.limit 100)
      (ParseIntOrDefault q.offset 0) with
  | some e0 => simp [ListTransactions, parseQueryParams, hp]
  | none =>
    cases hd : ParseAndValidateDateFilters q.start_date q.end_date with
    | error e0 => simp [ListTransactions, parseQueryParams, hp, hd]
    | ok dates =>
      cases ha : ParseAndValidateAmountFilters q.min_amount q.max_amount with
      | error e0 => simp [ListTransactions, parseQueryParams, hp, hd, ha]
      | ok amounts =>
        rcases hbad with ⟨e, he⟩ | ⟨e, he⟩ | ⟨e, he⟩ <;> simp_all

/-- Concrete instance of `list_handler_validation_gates` (limit `"0"`). -/
theorem list_handler_validation_gates_witness :
    ((∃ e, ValidatePagination (ParseIntOrDefault "0" 100)
        (ParseIntOrDefault "" 0) = some e) ∨
      (∃ e, ParseAndValidateDateFilters "" "" = Except.error e) ∨
      (∃ e, ParseAndValidateAmountFilters "" "" = Except.error e)) ∧
    ((ListTransactions NewMemoryStore ⟨"0", "", "", "", "", "", ""⟩).1 =
        false ∧
      ∃ e, (ListTransactions NewMemoryStore ⟨"0", "", "", "", "", "", ""⟩).2 =
        Except.error e) :=
  ⟨Or.inl ⟨"limit must be between 1 and 1000", rfl⟩,
    list_handler_validation_gates NewMemoryStore ⟨"0", "", "", "", "", "", ""⟩
      (Or.inl ⟨"limit must be between 1 and 1000", rfl⟩)⟩

/-! ## C3: the sorted-order invariant -/

theorem shouldInsertBefore_eq_true_iff (t e : Transaction) :
    shouldInsertBefore t e = true ↔ txnLt t e := by
  unfold shouldInsertBefore txnLt
  by_cases h1 : t.effectiveAt < e.effectiveAt
  · simp [h1]
  · by_cases h2 : e.effectiveAt < t.effectiveAt
    · simp only [if_neg h1, if_pos h2]
      constructor
      · intro h; exact absurd h (by simp)
      · rintro (h | ⟨he, _⟩) <;> omega
    · have heq : t.effectiveAt = e.effectiveAt := by omega
      simp [h1, h2, heq]

theorem txnLt_trans {a b c : Transaction} (h₁ : txnLt a b) (h₂ : txnLt b c) :
    txnLt a c := by
  unfold txnLt at *
  rcases h₁ with h | ⟨he, hi⟩ <;> rcases h₂ with h' | ⟨he', hi'⟩
  · left; omega
  · left; omega
  · left; omega
  · exact Or.inr ⟨by omega, lt_trans hi hi'⟩

theorem txnLt_of_lt_of_nlt {a b t : Transaction} (h₁ : txnLt a b)
    (h₂ : ¬ txnLt t b) : txnLt a t := by
  unfold txnLt at *
  push_neg at h₂
  obtain ⟨h2a, h2b⟩ := h₂
  rcases h₁ with h | ⟨he, hi⟩
  · left; omega
  · by_cases hc : b.effectiveAt < t.effectiveAt
    · left; omega
    · have heq : t.effectiveAt = b.effectiveAt := by omega
      refine Or.inr ⟨by omega, ?_⟩
      exact lt_of_lt_of_le hi (not_lt.mp (h2b heq))

theorem txnLt_of_nlt_of_ne {b t : Transaction} (h₁ : ¬ txnLt t b)
    (h₂ : b.id ≠ t.id) : txnLt b t := by
  unfold txnLt at *
  push_neg at h₁
  obtain ⟨h1a, h1b⟩ := h₁
  by_cases hc : b.effectiveAt < t.effectiveAt
  · left; omega
  · have heq : t.effectiveAt = b.effectiveAt := by omega
    exact Or.inr ⟨by omega, lt_of_le_of_ne (not_lt.mp (h1b heq)) h₂⟩

theorem sortSearchAux_spec (f : Nat → Bool) :
    ∀ fuel i j : Nat, j - i ≤ fuel → i ≤ j →
      i ≤ sortSearchAux f fuel i j ∧ sortSearchAux f fuel i j ≤ j ∧
      (sortSearchAux f fuel i j = i ∨
        f (sortSearchAux f fuel i j - 1) = false) ∧
      (sortSearchAux f fuel i j = j ∨
        f (sortSearchAux f fuel i j) = true) := by
  intro fuel
  induction fuel with
  | zero =>
    intro i j hfuel hij
    have : i = j := by omega
    subst this
    simp [sortSearchAux]
  | succ fuel ih =>
    intro i j hfuel hij
    have hstep : sortSearchAux f (fuel + 1) i j =
        if i < j then
          (if f ((i + j) / 2) then sortSearchAux f fuel i ((i + j) / 2)
           else sortSearchAux f fuel ((i + j) / 2 + 1) j)
        else i := rfl
    by_cases hij2 : i < j
    · have hm1 : i ≤ (i + j) / 2 := by omega
      have hm2 : (i + j) / 2 < j := by omega
      rw [hstep, if_pos hij2]
      cases hfm : f ((i + j) / 2) with
      | true =>
        rw [if_pos rfl]
        obtain ⟨a, b, c, d⟩ := ih i ((i + j) / 2) (by omega) (by omega)
        refine ⟨a, by omega, c, ?_⟩
        rcases d with d | d
        · right; rw [d]; exact hfm
        · right; exact d
      | false =>
        rw [if_neg (by simp)]
        obtain ⟨a, b, c, d⟩ := ih ((i + j) / 2 + 1) j (by omega) (by omega)
        refine ⟨by omega, b, ?_, d⟩
        rcases c with c | c
        · right; rw [c]; simpa using hfm
        · right; exact c
    · rw [hstep, if_neg hij2]
      have : i = j := by omega
      simp [this]

theorem sortSearch_spec (n : Nat) (f : Nat → Bool) :
    sortSearch n f ≤ n ∧
    (sortSearch n f = 0 ∨ f (sortSearch n f - 1) = false) ∧
    (sortSearch n f = n ∨ f (sortSearch n f) = true) := by
  obtain ⟨a, b, c, d⟩ := sortSearchAux_spec f n 0 n (by omega) (by omega)
  exact ⟨b, c, d⟩

theorem insertAt_perm (l : List Transaction) (n : Nat) (t : Transaction) :
    List.Perm (insertAt l n t) (t :: l) := by
  unfold insertAt
  have h : List.Perm (l.take n ++ t :: l.drop n) (t :: (l.take n ++ l.drop n)) :=
    List.perm_middle
  rwa [List.take_append_drop] at h

theorem pairwise_insertAt {R : Transaction → Transaction → Prop}
    {l : List Transaction} {t : Transaction} {n : Nat}
    (hl : l.Pairwise R)
    (hleft : ∀ x ∈ l.take n, R x t)
    (hright : ∀ y ∈ l.drop n, R t y) :
    (insertAt l n t).Pairwise R := by
  unfold insertAt
  rw [List.pairwise_append]
  have hsplit : (l.take n ++ l.drop n).Pairwise R := by
    rw [List.take_append_drop]; exact hl
  refine ⟨hl.sublist (List.take_sublist n l), ?_, ?_⟩
  · rw [List.pairwise_cons]
    exact ⟨hright, hl.sublist (List.drop_sublist n l)⟩
  · intro x hx y hy
    rcases List.mem_cons.mp hy with rfl | hy'
    · exact hleft x hx
    · exact (List.pairwise_append.mp hsplit).2.2 x hx y hy'

/-- Inserting a record with a fresh id at the position returned by the
binary search keeps the ordered sequence strictly sorted. -/
theorem ordered_insert_pairwise (l : List Transaction) (t : Transaction)
    (hl : l.Pairwise txnLt)
    (hfreshid : ∀ x ∈ l, x.id ≠ t.id) :
    (insertAt l
      (sortSearch l.length fun i => shouldInsertBefore t (l.getD i default))
      t).Pairwise txnLt := by
  obtain ⟨hrn, hleftB, hrightB⟩ :=
    sortSearch_spec l.length fun i => shouldInsertBefore t (l.getD i default)
  set r := sortSearch l.length fun i => shouldInsertBefore t (l.getD i default)
    with hr
  apply pairwise_insertAt hl
  · intro x hx
    obtain ⟨j, hj, hxj⟩ := List.mem_iff_getElem.mp hx
    have hjr : j < r := by
      simp only [List.length_take] at hj; omega
    have hjl : j < l.length := by
      simp only [List.length_take] at hj; omega
    rw [List.getElem_take] at hxj
    have hrl : r - 1 < l.length := by omega
    have hb : shouldInsertBefore t (l.getD (r - 1) default) = false := by
      rcases hleftB with h0 | h
      · omega
      · exact h
    rw [List.getD_eq_getElem l default hrl] at hb
    have hnlt : ¬ txnLt t (l.get ⟨r - 1, hrl⟩) := by
      intro hcon
      have := (shouldInsertBefore_eq_true_iff t _).mpr hcon
      rw [List.get_eq_getElem] at this
      rw [this] at hb
      exact absurd hb (by simp)
    rw [List.get_eq_getElem] at hnlt
    by_cases hjcase : j = r - 1
    · have hxmem : x ∈ l := by
        rw [← hxj]; exact List.getElem_mem hjl
      have hne : x.id ≠ t.id := hfreshid x hxmem
      have : l[j] = l[r - 1] := by congr 1
      rw [this] at hxj
      rw [← hxj]
      exact txnLt_of_nlt_of_ne (hxj ▸ hnlt) (hxj ▸ hne)
    · have hjlt : j < r - 1 := by omega
      have hpair : txnLt l[j] (l[r - 1]) :=
        List.pairwise_iff_getElem.mp hl j (r - 1) hjl hrl (by omega)
      rw [← hxj]
      exact txnLt_of_lt_of_nlt hpair hnlt
  · intro y hy
    obtain ⟨k, hk, hyk⟩ := List.mem_iff_getElem.mp hy
    have hkl : r + k < l.length := by
      simp only [List.length_drop] at hk; omega
    have hrltn : r < l.length := by omega
    have hfr : shouldInsertBefore t (l.getD r default) = true := by
      rcases hrightB with h | h
      · omega
      · exact h
    rw [List.getD_eq_getElem l default hrltn] at hfr
    have hltr : txnLt t (l[r]) :=
      (shouldInsertBefore_eq_true_iff t _).mp hfr
    rw [List.getElem_drop] at hyk
    rcases Nat.eq_zero_or_pos k with hk0 | hkpos
    · subst hk0
      rw [← hyk]
      have : l[r + 0] = l[r] := by congr 1
      rw [this]
      exact hltr
    · have hpair : txnLt (l[r]) (l[r + k]) :=
        List.pairwise_iff_getElem.mp hl r (r + k) hrltn hkl (by omega)
      rw [← hyk]
      exact txnLt_trans hltr hpair

theorem create_fresh_eq (s : MemoryStore) (t : Transaction)
    (hg : goGet s.transactions t.id = none) :
    s.Create t =
      ({ transactions := goSet s.transactions t.id t,
         ordered := insertAt s.ordered
           (sortSearch s.ordered.length
             fun i => shouldInsertBefore t (s.ordered.getD i default)) t },
       none) := by
  simp only [MemoryStore.Create, hg, Transaction.Clone]

theorem create_hit_fst (s : MemoryStore) (t e : Transaction)
    (hg : goGet s.transactions t.id = some e) : (s.Create t).1 = s := by
  simp only [MemoryStore.Create, hg]
  split <;> rfl

theorem inv_new : StoreInv NewMemoryStore := by
  refine ⟨?_, ?_, ?_, ?_⟩ <;> simp [NewMemoryStore, goWF, goKeys]

theorem inv_create (s : MemoryStore) (t : Transaction) (h : StoreInv s) :
    StoreInv (s.Create t).1 := by
  obtain ⟨hwf, hkeyed, hperm, hpair⟩ := h
  cases hg : goGet s.transactions t.id with
  | some e =>
    rw [create_hit_fst s t e hg]
    exact ⟨hwf, hkeyed, hperm, hpair⟩
  | none =>
    have hnotin : t.id ∉ goKeys s.transactions := by
      intro hmem
      rcases mem_goKeys.mp hmem with ⟨v, hv⟩
      exact (goGet_eq_none_iff _ _).mp hg (t.id, v) hv rfl
    have hfreshid : ∀ x ∈ s.ordered, x.id ≠ t.id := by
      intro x hx hxe
      have hx' : x ∈ s.transactions.map Prod.snd := hperm.mem_iff.mp hx
      rcases List.mem_map.mp hx' with ⟨p, hp, hsnd⟩
      apply hnotin
      have hfst : p.1 = t.id := by
        rw [hkeyed p hp, hsnd, hxe]
      exact hfst ▸ List.mem_map.mpr ⟨p, hp, rfl⟩
    rw [create_fresh_eq s t hg]
    refine ⟨?_, ?_, ?_, ?_⟩
    · show goWF (goSet s.transactions t.id t)
      rw [goSet_of_none t hg]
      unfold goWF goKeys at hwf ⊢
      rw [List.map_append]
      rw [List.nodup_append]
      refine ⟨hwf, by simp, ?_⟩
      intro a ha hb
      simp only [List.map_cons, List.map_nil, List.mem_singleton] at hb
      exact hnotin (by rw [← hb]; exact ha)
    · intro p hp
      rw [goSet_of_none t hg] at hp
      rcases List.mem_append.mp hp with hold | hnew
      · exact hkeyed p hold
      · have : p = (t.id, t) := by simpa using hnew
        rw [this]
    · show List.Perm (insertAt s.ordered _ t)
        ((goSet s.transactions t.id t).map Prod.snd)
      rw [goSet_of_none t hg, List.map_append]
      refine (insertAt_perm _ _ _).trans ?_
      refine ((hperm.cons t).trans ?_)
      exact (List.perm_append_singleton t _).symm
    · exact ordered_insert_pairwise s.ordered t hpair hfreshid

theorem inv_foldl (txns : List Transaction) :
    ∀ s, StoreInv s → StoreInv (txns.foldl (fun s t => (s.Create t).1) s) := by
  induction txns with
  | nil => intro s h; exact h
  | cons t rest ih => intro s h; exact ih _ (inv_create s t h)

/-- C3 — Total order and dual-structure invariant: after any sequence of
`Create` calls on a fresh store, the ordered sequence is sorted by
ascending `effectiveAt` with ties broken by ascending lexicographic `id`
(`txnLt` pairwise), and it holds exactly the records of the id-indexed
map. -/
theorem total_order_invariant (txns : List Transaction) :
    (createAll txns).ordered.Pairwise txnLt ∧
    ∀ t : Transaction, t ∈ (createAll txns).ordered ↔
      t ∈ (createAll txns).transactions.map Prod.snd := by
  obtain ⟨_, _, hperm, hpair⟩ := inv_foldl txns NewMemoryStore inv_new
  exact ⟨hpair, fun t => hperm.mem_iff⟩

/-! ## C6: pagination tiling -/

theorem map_clone (l : List Transaction) : l.map Transaction.Clone = l :=
  List.map_id' l

/-- `List` on non-negative arguments: the clamped window, no panic. -/
theorem list_nonneg_eq (s : MemoryStore) (lim off : Nat) :
    s.List (lim : Int) (off : Int) =
      some (((s.ordered.drop off).take lim).map Transaction.Clone) := by
  unfold MemoryStore.List
  by_cases hofflen : (off : Int) ≥ (s.ordered.length : Int)
  · rw [if_pos hofflen]
    have hlen : s.ordered.length ≤ off := by exact_mod_cast hofflen
    rw [List.drop_eq_nil_of_le hlen]
    simp
  · rw [if_neg hofflen]
    have hoff : off < s.ordered.length := by
      by_contra hcon
      exact hofflen (by exact_mod_cast Nat.le_of_not_lt hcon)
    by_cases hcap : (off : Int) + (lim : Int) > (s.ordered.length : Int)
    · rw [if_pos hcap,
        if_pos ⟨Int.natCast_nonneg off, by exact_mod_cast Nat.le_of_lt hoff⟩]
      rw [Int.toNat_natCast, Int.toNat_natCast, List.take_length]
      have hlim : (s.ordered.drop off).length ≤ lim := by
        simp only [List.length_drop]
        have : s.ordered.length < off + lim := by exact_mod_cast hcap
        omega
      rw [List.take_of_length_le hlim]
    · rw [if_neg hcap, if_pos ⟨Int.natCast_nonneg off, by omega⟩]
      have htn : ((off : Int) + (lim : Int)).toNat = off + lim := by
        omega
      rw [htn, Int.toNat_natCast, List.drop_take]
      have harg : off + lim - off = lim := by omega
      rw [harg]

/-- Splitting a list into `n` chunks of `m` recovers the list when the
chunks cover it. -/
theorem chunks_flatten (m : Nat) :
    ∀ (n : Nat) (l : List Transaction), l.length ≤ n * m →
      ((List.range n).map (fun k => (l.drop (k * m)).take m)).flatten = l := by
  intro n
  induction n with
  | zero =>
    intro l h
    have : l = [] := List.eq_nil_of_length_eq_zero (by omega)
    simp [this]
  | succ n ih =>
    intro l h
    rw [List.range_succ_eq_map, List.map_cons, List.flatten_cons, List.map_map]
    have hmap : (List.range n).map ((fun k => (l.drop (k * m)).take m) ∘ Nat.succ) =
        (List.range n).map (fun k => ((l.drop m).drop (k * m)).take m) := by
      apply List.map_congr_left
      intro k _
      have harg : k.succ * m = m + k * m := by
        rw [Nat.succ_mul]; omega
      rw [Function.comp_apply, harg, ← List.drop_drop]
    have hlen : (l.drop m).length ≤ n * m := by
      rw [Nat.succ_mul] at h
      simp only [List.length_drop]
      omega
    rw [hmap, ih (l.drop m) hlen]
    simp only [Nat.zero_mul, List.drop_zero]
    exact List.take_append_drop m l

/-- C6 — Pagination tiling: for any store and fixed `limit ≥ 1`, the pages
at offsets `0, limit, 2·limit, …` all succeed, and once `n·limit` covers
the store their concatenation is exactly the full ordered sequence — no
gaps, no repeats. -/
theorem pagination_tiling (s : MemoryStore) (limit n : Nat) (hlim : 1 ≤ limit)
    (hcover : s.ordered.length ≤ n * limit) :
    (∀ k : Nat, ∃ page,
      s.List (limit : Int) ((k * limit : Nat) : Int) = some page) ∧
    ((List.range n).map
      (fun k => (s.List (limit : Int) ((k * limit : Nat) : Int)).getD [])).flatten =
      s.ordered := by
  constructor
  · intro k
    exact ⟨_, list_nonneg_eq s limit (k * limit)⟩
  · have hpages : (List.range n).map
        (fun k => (s.List (limit : Int) ((k * limit : Nat) : Int)).getD []) =
        (List.range n).map (fun k => (s.ordered.drop (k * limit)).take limit) := by
      apply List.map_congr_left
      intro k _
      rw [list_nonneg_eq s limit (k * limit), Option.getD_some, map_clone]
    rw [hpages]
    exact chunks_flatten limit n s.ordered hcover

/-- Concrete instance of `pagination_tiling`: two records inserted out of
order, pages of size 1. -/
theorem pagination_tiling_witness :
    (1 ≤ 1 ∧
      (createAll [⟨"a", 1, "USD", 200, []⟩,
        ⟨"b", 2, "USD", 100, []⟩]).ordered.length ≤ 2 * 1) ∧
    ((∀ k : Nat, ∃ page,
      (createAll [⟨"a", 1, "USD", 200, []⟩,
        ⟨"b", 2, "USD", 100, []⟩]).List ((1 : Nat) : Int)
          ((k * 1 : Nat) : Int) = some page) ∧
    ((List.range 2).map
      (fun k => ((createAll [⟨"a", 1, "USD", 200, []⟩,
        ⟨"b", 2, "USD", 100, []⟩]).List ((1 : Nat) : Int)
          ((k * 1 : Nat) : Int)).getD [])).flatten =
      (createAll [⟨"a", 1, "USD", 200, []⟩,
        ⟨"b", 2, "USD", 100, []⟩]).ordered) :=
  ⟨⟨by decide, by decide⟩,
    pagination_tiling
      (createAll [⟨"a", 1, "USD", 200, []⟩, ⟨"b", 2, "USD", 100, []⟩])
      1 2 (by decide) (by decide)⟩

/-! ## C10: the 10000-record fetch cap in the list handler -/

theorem apply_pagination_subset {l res : List Transaction} {lim off : Int}
    (h : ApplyPagination l lim off = some res) : res ⊆ l := by
  unfold ApplyPagination at h
  dsimp only at h
  set st := if off > (l.length : Int) then (l.length : Int) else off with hst
  set e := if st + lim > (l.length : Int) then (l.length : Int) else st + lim
    with he
  by_cases hc : 0 ≤ st ∧ st ≤ e
  · rw [if_pos hc] at h
    have hres := Option.some.inj h
    intro x hx
    rw [← hres] at hx
    exact List.take_subset _ _ (List.drop_subset _ _ hx)
  · rw [if_neg hc] at h
    exact Option.noConfusion h

theorem apply_filters_subset (l : List Transaction) (c : String)
    (sd ed mn mx : Option Int) : ApplyFilters l c sd ed mn mx ⊆ l := by
  intro x hx
  exact List.mem_of_mem_filter hx

theorem list_cap_eq (s : MemoryStore) :
    s.List 10000 0 = some (s.ordered.take 10000) := by
  have h := list_nonneg_eq s 10000 0
  rw [List.drop_zero, map_clone] at h
  exact h

/-- C10 — Batch cap on the read path: the handler fetches
`List(10000, 0)`, so (under the store invariant that ids are unique) a
record at position `10000` or later of the global order never appears in
any successful list response; and whenever the store holds at most
`10000` records, the endpoint is exactly the filter-then-paginate
pipeline over the full ordered sequence. -/
theorem batch_cap (s : MemoryStore) (q : ListQuery)
    (hnodup : (s.ordered.map Transaction.id).Nodup) :
    (∀ res, (ListTransactions s q).2 = Except.ok res →
      ∀ (i : Nat), 10000 ≤ i → ∀ hi : i < s.ordered.length,
        s.ordered.get ⟨i, hi⟩ ∉ res) ∧
    (s.ordered.length ≤ 10000 →
      (ListTransactions s q).2 = pipelineOnFull s.ordered q) := by
  cases hv : ValidatePagination (ParseIntOrDefault q.limit 100)
      (ParseIntOrDefault q.offset 0) with
  | some e =>
    refine ⟨?_, ?_⟩
    · intro res hres
      simp only [ListTransactions, parseQueryParams, hv] at hres
      exact absurd hres (by simp)
    · intro _
      simp [ListTransactions, pipelineOnFull, parseQueryParams, hv]
  | none =>
    cases hd : ParseAndValidateDateFilters q.start_date q.end_date with
    | error e =>
      refine ⟨?_, ?_⟩
      · intro res hres
        simp only [ListTransactions, parseQueryParams, hv, hd] at hres
        exact absurd hres (by simp)
      · intro _
        simp [ListTransactions, pipelineOnFull, parseQueryParams, hv, hd]
    | ok dates =>
      cases ha : ParseAndValidateAmountFilters q.min_amount q.max_amount with
      | error e =>
        refine ⟨?_, ?_⟩
        · intro res hres
          simp only [ListTransactions, parseQueryParams, hv, hd, ha] at hres
          exact absurd hres (by simp)
        · intro _
          simp [ListTransactions, pipelineOnFull, parseQueryParams, hv, hd, ha]
      | ok amounts =>
        have hlist := list_cap_eq s
        refine ⟨?_, ?_⟩
        · intro res hres i hge hi
          simp only [ListTransactions, parseQueryParams, hv, hd, ha,
            hlist] at hres
          cases hap : ApplyPagination
              (ApplyFilters (s.ordered.take 10000) (q.currency.toUpper)
                dates.1 dates.2 amounts.1 amounts.2)
              (ParseIntOrDefault q.limit 100)
              (ParseIntOrDefault q.offset 0) with
          | none =>
            rw [hap] at hres
            exact absurd hres (by simp)
          | some results =>
            rw [hap] at hres
            have hok : results = res := by simpa using hres
            subst hok
            intro hmem
            have h1 := apply_pagination_subset hap hmem
            have h2 := apply_filters_subset (s.ordered.take 10000)
              (q.currency.toUpper) dates.1 dates.2 amounts.1 amounts.2 h1
            obtain ⟨j, hj, hval⟩ := List.mem_iff_getElem.mp h2
            have hjlen : j < s.ordered.length := by
              simp only [List.length_take] at hj; omega
            have hj10000 : j < 10000 := by
              simp only [List.length_take] at hj; omega
            rw [List.getElem_take] at hval
            rw [List.get_eq_getElem] at hval
            have hgeteq : (s.ordered.map Transaction.id).get
                ⟨j, by simpa using hjlen⟩ =
                (s.ordered.map Transaction.id).get ⟨i, by simpa using hi⟩ := by
              simp only [List.get_eq_getElem, List.getElem_map]
              rw [hval]
            have heq := (List.Nodup.get_inj_iff hnodup).mp hgeteq
            have : j = i := by simpa using heq
            omega
        · intro hle
          have htake : s.ordered.take 10000 = s.ordered :=
            List.take_of_length_le hle
          simp only [ListTransactions, pipelineOnFull, parseQueryParams, hv,
            hd, ha, hlist, htake]
          cases ApplyPagination
              (ApplyFilters s.ordered (q.currency.toUpper) dates.1 dates.2
                amounts.1 amounts.2)
              (ParseIntOrDefault q.limit 100)
              (ParseIntOrDefault q.offset 0) <;> rfl

/-- Concrete instance of `batch_cap` (empty store, default parameters). -/
theorem batch_cap_witness :
    (NewMemoryStore.ordered.map Transaction.id).Nodup ∧
    ((∀ res,
        (ListTransactions NewMemoryStore ⟨"", "", "", "", "", "", ""⟩).2 =
          Except.ok res →
        ∀ (i : Nat), 10000 ≤ i →
          ∀ hi : i < NewMemoryStore.ordered.length,
            NewMemoryStore.ordered.get ⟨i, hi⟩ ∉ res) ∧
      (NewMemoryStore.ordered.length ≤ 10000 →
        (ListTransactions NewMemoryStore ⟨"", "", "", "", "", "", ""⟩).2 =
          pipelineOnFull NewMemoryStore.ordered
            ⟨"", "", "", "", "", "", ""⟩)) :=
  ⟨by decide,
    batch_cap NewMemoryStore ⟨"", "", "", "", "", "", ""⟩ (by decide)⟩
